import Mathlib

/-!
Verification development for the ElectroGPT pipeline (src/app.py).

The program is a document question-answering pipeline: PDF text extraction
(`get_datasheets_text`), chunking (`get_text_chunks`), vector indexing
(`get_vectorstore`), and a conversational session (`get_conversation_chain`,
`handle_userinput`, `main`).  Text is embedded as `List Char`; the pluggable
embedding and generation backends are parameters.  Parts of the pipeline that
live in third-party libraries (langchain's text splitter and conversational
retrieval chain, FAISS) are not in the repository's sources; those are
modelled from the specification and marked as such in their doc comments.
-/

namespace ElectroGPT

/-- A chunk of text, the unit of retrieval. -/
abbrev Chunk := List Char

/-- One extracted page of a PDF document (the result of `page.extract_text()`). -/
abbrev Page := List Char

/-- A document, as the sequence of its pages' extracted texts. -/
abbrev Document := List Page

/-- Embedding of `get_datasheets_text` (src/app.py lines 28-34): starts from the
empty string and, for each datasheet in input order, appends the text of each
page in page order with `+=`, no separator. -/
def get_datasheets_text (datasheets : List Document) : List Char :=
  datasheets.foldl (fun text d => d.foldl (fun text page => text ++ page) text) []

/-- The last `n` characters of a list (all of it when it is shorter than `n`). -/
def takeRight (n : Nat) (l : List Char) : List Char :=
  l.drop (l.length - n)

/-- `startsWith p l` holds when `l` begins with `p`. -/
def startsWith (p l : List Char) : Prop :=
  l.take p.length = p

instance (p l : List Char) : Decidable (startsWith p l) := by
  unfold startsWith; infer_instance

/-- Split a text on the newline separator; pieces do not contain the
separator.  `splitOnNl "" = [""]`, matching Python's `"".split("\n")`. -/
def splitOnNl : List Char → List (List Char)
  | [] => [[]]
  | c :: cs =>
    if c = '\n' then [] :: splitOnNl cs
    else
      match splitOnNl cs with
      | [] => [[c]]
      | t :: ts => (c :: t) :: ts

/-- Modelled from the spec: langchain's `CharacterTextSplitter` (used by
`get_text_chunks`, src/app.py lines 53-57) is library code absent from the
repository.  `windows` is the within-piece policy: a piece no longer than
`size` is one chunk; otherwise emit the first `size` characters and continue
from position `size - ov`, so each window carries the trailing `ov` characters
of its predecessor (spec 4.2: chunks no larger than `chunk_size`, trailing
`overlap` characters carried into the start of the next chunk; spec 8:
1200 identical characters with size 1000 / overlap 200 give two chunks). -/
def windows (size ov : Nat) (s : List Char) : List (List Char) :=
  if s.length ≤ size ∨ size ≤ ov then [s]
  else s.take size :: windows size ov (s.drop (size - ov))
termination_by s.length
decreasing_by
  simp only [List.length_drop]
  omega

/-- Modelled from the spec: the line-packing loop of langchain's
`CharacterTextSplitter` (absent from the repository).  `cur` is the chunk
being assembled; each further line is joined to it with the newline separator
while the result stays within `size`; on overflow `cur` is emitted (windowed
if it is itself oversized) and the next chunk starts with the trailing `ov`
characters of the last emitted chunk (spec 4.2). -/
def packLines (size ov : Nat) (cur : List Char) : List (List Char) → List (List Char)
  | [] => windows size ov cur
  | line :: rest =>
    if cur.length + 1 + line.length ≤ size then
      packLines size ov (cur ++ '\n' :: line) rest
    else
      let ws := windows size ov cur
      ws ++ packLines size ov (takeRight ov (ws.getLastD []) ++ '\n' :: line) rest

/-- Modelled from the spec: `split(text, chunk_size, overlap)` of spec 4.2,
standing in for langchain's `CharacterTextSplitter.split_text`, which is
library code absent from the repository.  Empty text yields no chunks;
otherwise the text is split on the newline separator and the lines are
greedily packed. -/
def split (size ov : Nat) (text : List Char) : List (List Char) :=
  if text = [] then []
  else
    match splitOnNl text with
    | [] => []
    | l :: ls => packLines size ov l ls

/-- Embedding of `get_text_chunks` (src/app.py lines 53-59): splits the raw
text with separator `'\n'`, `chunk_size = 1000`, `chunk_overlap = 200`. -/
def get_text_chunks (raw_text : List Char) : List (List Char) :=
  split 1000 200 raw_text

/-- The overlap relation between consecutive chunks: the next chunk begins
with the trailing `ov` characters of the previous one (all of it when the
previous chunk is shorter than `ov`). -/
def overlapRel (ov : Nat) (a b : List Char) : Prop :=
  startsWith (takeRight ov a) b

/-- The input on which the “overlaps by exactly 200 characters” reading
fails: a 50-character line followed by a 960-character line. -/
def shortLineText : List Char :=
  List.replicate 50 'B' ++ '\n' :: List.replicate 960 'C'

/-- The error taxonomy of spec section 7. -/
inductive PipelineError
  | InvalidDocumentFormat (position : Nat)
  | InvalidChunkConfig
  | EmptyChunkSet
  | EmbeddingBackendError
  | GenerationBackendError
  | SessionNotReady
  | ProcessingInProgress
deriving DecidableEq

/-- A pluggable embedding backend: `embed(text) -> vector` (spec 4.3). -/
abbrev Embedder := List Char → List Int

/-- The vector store over one upload batch; it owns the chunks of that batch
and is immutable after construction (spec 4.3). -/
structure VectorIndex where
  chunks : List Chunk
deriving DecidableEq

/-- Embedding of `get_vectorstore` (src/app.py lines 83-88).  Modelled from
the spec: `FAISS.from_texts` and the embedding backend are library code
absent from the repository; per spec 4.3, `build` fails with `EmptyChunkSet`
on zero chunks and otherwise indexes every chunk. -/
def get_vectorstore (text_chunks : List Chunk) : Except PipelineError VectorIndex :=
  if text_chunks.isEmpty then .error .EmptyChunkSet
  else .ok ⟨text_chunks⟩

/-- Inner-product similarity score between two embedding vectors. -/
def dotInt (a b : List Int) : Int :=
  (a.zip b).foldl (fun s p => s + p.1 * p.2) 0

/-- Insert a scored chunk into a list sorted by descending score, after any
chunk of equal score (stable: ties keep original chunk order, spec 4.3). -/
def insertRanked (x : Int × Chunk) : List (Int × Chunk) → List (Int × Chunk)
  | [] => [x]
  | y :: ys => if y.1 < x.1 then x :: y :: ys else y :: insertRanked x ys

/-- Stable sort of scored chunks by descending score. -/
def rankChunks (scored : List (Int × Chunk)) : List (Int × Chunk) :=
  scored.foldl (fun acc x => insertRanked x acc) []

/-- Modelled from the spec: the similarity retriever backing
`vectorstore.as_retriever()` (FAISS, absent from the repository).
Per spec 4.3, `query` embeds the query text, ranks the indexed chunks by
similarity in descending score order with ties broken by original chunk
order, and returns the top `k`. -/
def query (embed : Embedder) (idx : VectorIndex) (text : List Char) (k : Nat) :
    List Chunk :=
  (rankChunks (idx.chunks.map
      (fun c => (dotInt (embed text) (embed c), c)))).take k |>.map (·.2)

/-- A (question, answer) chat turn. -/
abbrev ChatTurn := List Char × List Char

/-- A conversation session: one bound vector index plus the append-only
chat-turn history (spec section 3). -/
structure ConversationSession where
  index : VectorIndex
  history : List ChatTurn
deriving DecidableEq

/-- Embedding of `get_conversation_chain` (src/app.py lines 91-126): binds
the vector store into a fresh session whose buffer memory starts empty. -/
def get_conversation_chain (vectorstore : VectorIndex) : ConversationSession :=
  ⟨vectorstore, []⟩

/-- The number of chunks retrieved per question (spec 4.3: default small
constant, e.g. 4 — the langchain retriever default). -/
def topK : Nat := 4

/-- The chunks retrieved for one `ask` call: the bound index is queried with
the current question text only (spec 4.4 step 1). -/
def retrievedChunks (embed : Embedder) (s : ConversationSession)
    (question : List Char) : List Chunk :=
  query embed s.index question topK

/-- The input composed for the generation backend on one `ask` call: the full
prior history, the retrieved chunks, and the new question (spec 4.4 step 2). -/
structure GenInput where
  chat_history : List ChatTurn
  context : List Chunk
  question : List Char
deriving DecidableEq

/-- A pluggable generation backend: `generate(context) -> text`, which may
fail with a backend error (spec 4.4 step 3). -/
abbrev Generator := GenInput → Except PipelineError (List Char)

/-- The exact input handed to the generation backend for one `ask` call on
session `s` with the given question (spec 4.4 step 2). -/
def askGenInput (embed : Embedder) (s : ConversationSession)
    (question : List Char) : GenInput :=
  ⟨s.history, retrievedChunks embed s question, question⟩

/-- Modelled from the spec: one turn of langchain's
`ConversationalRetrievalChain` (absent from the repository), per spec 4.4:
retrieve with the raw question, compose history + chunks + question, call the
generation backend, and on success append the new turn to the history.
Backend errors propagate and nothing is appended. -/
def ask (embed : Embedder) (gen : Generator) (s : ConversationSession)
    (question : List Char) : Except PipelineError (List Char × ConversationSession) :=
  match gen (askGenInput embed s question) with
  | .error e => .error e
  | .ok answer => .ok (answer, ⟨s.index, s.history ++ [(question, answer)]⟩)

/-- The UI session store: `st.session_state.conversation` and
`st.session_state.chat_history` (src/app.py lines 183-186). -/
structure AppState where
  conversation : Option ConversationSession
  chat_history : Option (List (List Char))
deriving DecidableEq

/-- Initial session state: both keys set to `None` (src/app.py lines 183-186). -/
def initState : AppState := ⟨none, none⟩

/-- The flat message list exposed as `response['chat_history']`: questions
and answers alternating in turn order. -/
def messagesOf (h : List ChatTurn) : List (List Char) :=
  (h.map (fun t => [t.1, t.2])).flatten

/-- How one `ask` outcome updates the stored state (src/app.py lines
146-147): on success the conversation and its rendered `chat_history` are
stored; an error propagates before either assignment, leaving `st` as it
was. -/
def renderResponse (st : AppState)
    (r : Except PipelineError (List Char × ConversationSession)) :
    Except PipelineError (List Char) × AppState :=
  match r with
  | .error e => (.error e, st)
  | .ok (answer, s2) => (.ok answer, ⟨some s2, some (messagesOf s2.history)⟩)

/-- Embedding of `handle_userinput` (src/app.py lines 129-153): passes the
question to the stored conversation and saves the returned history.  A `None`
conversation rejects the call (`SessionNotReady`, spec 4.4); a backend error
propagates with the stored state untouched (spec 7). -/
def handle_userinput (embed : Embedder) (gen : Generator) (st : AppState)
    (user_question : List Char) :
    Except PipelineError (List Char) × AppState :=
  match st.conversation with
  | none => (.error .SessionNotReady, st)
  | some s => renderResponse st (ask embed gen s user_question)

/-- Embedding of the question branch of `main` (src/app.py lines 189-191):
`if user_question:` invokes the handler only when the text is non-empty
(Python string truthiness). -/
def questionStep (embed : Embedder) (gen : Generator) (st : AppState)
    (user_question : List Char) : AppState :=
  if user_question.isEmpty then st
  else (handle_userinput embed gen st user_question).2

/-- Embedding of the Process branch of `main` (src/app.py lines 199-208):
extract, chunk, build the vector store, and replace the stored conversation
with a fresh session.  A pipeline failure aborts before the assignment, so
the previous state is kept (spec 7). -/
def processStep (st : AppState) (docs : List Document) :
    Except PipelineError Unit × AppState :=
  match get_vectorstore (get_text_chunks (get_datasheets_text docs)) with
  | .error e => (.error e, st)
  | .ok vs => (.ok (), { st with conversation := some (get_conversation_chain vs) })

lemma startsWith_length_le {p l : List Char} (h : startsWith p l) :
    p.length ≤ l.length := by
  have h2 : p.length ⊓ l.length = p.length := by
    simpa [List.length_take] using congrArg List.length h
  omega

lemma startsWith_take (l : List Char) (n : Nat) : startsWith (l.take n) l := by
  unfold startsWith
  rw [List.length_take]
  exact List.take_eq_take.mpr (by omega)

lemma startsWith_of_take {p l : List Char} {n : Nat} (h : startsWith p l)
    (hn : p.length ≤ n) : startsWith p (l.take n) := by
  unfold startsWith at *
  rw [List.take_take]
  have hm : p.length ⊓ n = p.length := by omega
  rw [hm]
  exact h

lemma startsWith_append_right {p l : List Char} (r : List Char)
    (h : startsWith p l) : startsWith p (l ++ r) := by
  have hle := startsWith_length_le h
  unfold startsWith at *
  rw [List.take_append_of_le_length hle]
  exact h

lemma startsWith_append_self (p r : List Char) : startsWith p (p ++ r) := by
  unfold startsWith
  exact List.take_left p r

lemma takeRight_length_le (n : Nat) (l : List Char) :
    (takeRight n l).length ≤ n := by
  unfold takeRight
  rw [List.length_drop]
  omega

lemma windows_ne_nil (size ov : Nat) (s : List Char) :
    windows size ov s ≠ [] := by
  induction s using windows.induct size ov with
  | case1 s h => rw [windows, if_pos h]; simp
  | case2 s h ih => rw [windows, if_neg h]; simp

lemma length_le_of_mem_windows {size ov : Nat} (hov : ov < size)
    {s c : List Char} (hc : c ∈ windows size ov s) : c.length ≤ size := by
  induction s using windows.induct size ov with
  | case1 s h =>
    rw [windows, if_pos h] at hc
    have hs : s.length ≤ size := by omega
    simp only [List.mem_singleton] at hc
    exact hc ▸ hs
  | case2 s h ih =>
    rw [windows, if_neg h] at hc
    rcases List.mem_cons.mp hc with h1 | h2
    · rw [h1, List.length_take]; omega
    · exact ih h2

lemma startsWith_head_windows {size ov : Nat} {p s : List Char}
    (hp : p.length ≤ size) (hs : startsWith p s) :
    ∀ b ∈ (windows size ov s).head?, startsWith p b := by
  intro b hb
  rw [windows] at hb
  by_cases h : s.length ≤ size ∨ size ≤ ov
  · rw [if_pos h] at hb
    simp only [List.head?_cons, Option.mem_def, Option.some.injEq] at hb
    exact hb ▸ hs
  · rw [if_neg h] at hb
    simp only [List.head?_cons, Option.mem_def, Option.some.injEq] at hb
    exact hb ▸ startsWith_of_take hs hp

lemma chain'_windows {size ov : Nat} (hov : ov < size) (s : List Char) :
    List.Chain' (overlapRel ov) (windows size ov s) := by
  induction s using windows.induct size ov with
  | case1 s h =>
    rw [windows, if_pos h]
    exact List.chain'_singleton s
  | case2 s h ih =>
    rw [windows, if_neg h]
    push_neg at h
    refine List.chain'_cons'.mpr ⟨?_, ih⟩
    intro y hy
    have hlen : (s.take size).length = size := by
      rw [List.length_take]; omega
    have hkey : takeRight ov (s.take size) = (s.drop (size - ov)).take ov := by
      unfold takeRight
      rw [hlen, List.drop_take]
      have : size - (size - ov) = ov := by omega
      rw [this]
    unfold overlapRel
    rw [hkey]
    refine startsWith_head_windows ?_ (startsWith_take _ _) y hy
    rw [List.length_take]
    omega

lemma packLines_ne_nil (size ov : Nat) (cur : List Char)
    (lines : List (List Char)) : packLines size ov cur lines ≠ [] := by
  induction lines generalizing cur with
  | nil => exact windows_ne_nil size ov cur
  | cons line rest ih =>
    rw [packLines]
    by_cases h : cur.length + 1 + line.length ≤ size
    · rw [if_pos h]; exact ih _
    · rw [if_neg h]
      simp only [ne_eq, List.append_eq_nil]
      intro hcon
      exact windows_ne_nil size ov cur hcon.1

lemma length_le_of_mem_packLines {size ov : Nat} (hov : ov < size)
    {cur c : List Char} {lines : List (List Char)}
    (hc : c ∈ packLines size ov cur lines) : c.length ≤ size := by
  induction lines generalizing cur with
  | nil => exact length_le_of_mem_windows hov hc
  | cons line rest ih =>
    rw [packLines] at hc
    by_cases h : cur.length + 1 + line.length ≤ size
    · rw [if_pos h] at hc; exact ih hc
    · rw [if_neg h] at hc
      simp only [List.mem_append] at hc
      rcases hc with h1 | h2
      · exact length_le_of_mem_windows hov h1
      · exact ih h2

lemma startsWith_head_packLines {size ov : Nat} {p cur : List Char}
    {lines : List (List Char)} (hp : p.length ≤ size)
    (hs : startsWith p cur) :
    ∀ b ∈ (packLines size ov cur lines).head?, startsWith p b := by
  induction lines generalizing cur with
  | nil => exact startsWith_head_windows hp hs
  | cons line rest ih =>
    intro b hb
    rw [packLines] at hb
    by_cases h : cur.length + 1 + line.length ≤ size
    · rw [if_pos h] at hb
      exact ih (startsWith_append_right _ hs) b hb
    · rw [if_neg h] at hb
      simp only [List.head?_append] at hb
      rcases hw : (windows size ov cur).head? with _ | w
      · exact absurd (List.head?_eq_none_iff.mp hw) (windows_ne_nil size ov cur)
      · rw [hw] at hb
        simp only [Option.or_some, Option.mem_def, Option.some.injEq] at hb
        exact hb ▸ startsWith_head_windows hp hs w hw

lemma chain'_packLines {size ov : Nat} (hov : ov < size) (cur : List Char)
    (lines : List (List Char)) :
    List.Chain' (overlapRel ov) (packLines size ov cur lines) := by
  induction lines generalizing cur with
  | nil => exact chain'_windows hov cur
  | cons line rest ih =>
    rw [packLines]
    by_cases h : cur.length + 1 + line.length ≤ size
    · rw [if_pos h]; exact ih _
    · rw [if_neg h]
      refine List.chain'_append.mpr ⟨chain'_windows hov cur, ih _, ?_⟩
      intro x hx y hy
      have hlast : (windows size ov cur).getLastD [] = x := by
        rw [List.getLastD_eq_getLast?, hx]
        rfl
      rw [hlast] at hy
      unfold overlapRel
      refine startsWith_head_packLines ?_ (startsWith_append_self _ _) y hy
      have := takeRight_length_le ov x
      omega

lemma splitOnNl_eq_singleton {s : List Char} (h : '\n' ∉ s) :
    splitOnNl s = [s] := by
  induction s with
  | nil => rfl
  | cons c cs ih =>
    have hc : ¬ c = '\n' := fun hh => h (hh ▸ List.mem_cons_self c cs)
    rw [splitOnNl, if_neg hc, ih (fun hm => h (List.mem_cons_of_mem c hm))]

lemma splitOnNl_append {a b : List Char} (h : '\n' ∉ a) :
    splitOnNl (a ++ '\n' :: b) = a :: splitOnNl b := by
  induction a with
  | nil => rw [List.nil_append, splitOnNl, if_pos rfl]
  | cons c cs ih =>
    have hc : ¬ c = '\n' := fun hh => h (hh ▸ List.mem_cons_self c cs)
    rw [List.cons_append, splitOnNl, if_neg hc,
      ih (fun hm => h (List.mem_cons_of_mem c hm))]

lemma get_text_chunks_eq {raw l : List Char} {ls : List (List Char)}
    (hne : raw ≠ []) (hsp : splitOnNl raw = l :: ls) :
    get_text_chunks raw = packLines 1000 200 l ls := by
  unfold get_text_chunks ElectroGPT.split
  rw [if_neg hne, hsp]

lemma windows_replicate_1200 :
    windows 1000 200 (List.replicate 1200 'A') =
      [List.replicate 1000 'A', List.replicate 400 'A'] := by
  rw [windows, if_neg (by simp only [List.length_replicate]; omega),
    List.take_replicate, List.drop_replicate]
  norm_num
  rw [windows, if_pos (by simp only [List.length_replicate]; omega)]

/-- C2: splitting 1200 identical characters (no newlines) with
`chunk_size = 1000`, `overlap = 200` yields exactly two chunks, and the
second chunk starts with the last 200 characters of the first. -/
theorem get_text_chunks_replicate_1200 :
    get_text_chunks (List.replicate 1200 'A') =
        [List.replicate 1000 'A', List.replicate 400 'A'] ∧
    (get_text_chunks (List.replicate 1200 'A')).length = 2 ∧
    startsWith
      (takeRight 200 ((get_text_chunks (List.replicate 1200 'A')).getD 0 []))
      ((get_text_chunks (List.replicate 1200 'A')).getD 1 []) := by
  have hne : (List.replicate 1200 'A') ≠ [] := by
    intro h
    have hl := congrArg List.length h
    simp only [List.length_replicate, List.length_nil] at hl
    exact absurd hl (by omega)
  have hnl : '\n' ∉ List.replicate 1200 'A' := by
    rw [List.mem_replicate]
    intro h
    exact absurd h.2 (by decide)
  have hch : get_text_chunks (List.replicate 1200 'A') =
      [List.replicate 1000 'A', List.replicate 400 'A'] := by
    rw [get_text_chunks_eq hne (splitOnNl_eq_singleton hnl), packLines]
    exact windows_replicate_1200
  refine ⟨hch, by rw [hch]; rfl, ?_⟩
  rw [hch]
  show startsWith (takeRight 200 (List.replicate 1000 'A')) (List.replicate 400 'A')
  have h1 : takeRight 200 (List.replicate 1000 'A') = List.replicate 200 'A' := by
    unfold takeRight
    rw [List.length_replicate, List.drop_replicate]
  rw [h1]
  unfold startsWith
  rw [List.length_replicate, List.take_replicate]
  norm_num

/-- C3 (amended): every chunk produced by `get_text_chunks` has length at
most 1000, and each chunk begins with the trailing
`min 200 (length of previous chunk)` characters of the previous chunk. -/
theorem get_text_chunks_size_and_overlap (raw : List Char) :
    (∀ c ∈ get_text_chunks raw, c.length ≤ 1000) ∧
    List.Chain' (overlapRel 200) (get_text_chunks raw) := by
  have hov : (200 : Nat) < 1000 := by norm_num
  by_cases hne : raw = []
  · subst hne
    have h0 : get_text_chunks ([] : List Char) = [] := rfl
    rw [h0]
    exact ⟨fun c hc => absurd hc (List.not_mem_nil c), List.chain'_nil⟩
  · rcases hsp : splitOnNl raw with _ | ⟨l, ls⟩
    · have h0 : get_text_chunks raw = [] := by
        unfold get_text_chunks ElectroGPT.split
        rw [if_neg hne, hsp]
      rw [h0]
      exact ⟨fun c hc => absurd hc (List.not_mem_nil c), List.chain'_nil⟩
    · rw [get_text_chunks_eq hne hsp]
      exact ⟨fun c hc => length_le_of_mem_packLines hov hc,
        chain'_packLines hov l ls⟩


lemma packLines_overflow {size ov : Nat} {cur line : List Char}
    {rest : List (List Char)} (h : ¬ cur.length + 1 + line.length ≤ size) :
    packLines size ov cur (line :: rest) =
      windows size ov cur ++
        packLines size ov
          (takeRight ov ((windows size ov cur).getLastD []) ++ '\n' :: line)
          rest := by
  rw [packLines, if_neg h]

lemma get_text_chunks_shortLineText :
    get_text_chunks shortLineText =
      [List.replicate 50 'B',
       List.replicate 50 'B' ++ '\n' :: List.replicate 949 'C',
       List.replicate 211 'C'] := by
  have hne : shortLineText ≠ [] := by
    intro h
    have hl := congrArg List.length h
    simp only [shortLineText, List.length_append, List.length_cons,
      List.length_replicate, List.length_nil] at hl
    omega
  have hnlB : '\n' ∉ List.replicate 50 'B' := by
    rw [List.mem_replicate]
    intro h
    exact absurd h.2 (by decide)
  have hnlC : '\n' ∉ List.replicate 960 'C' := by
    rw [List.mem_replicate]
    intro h
    exact absurd h.2 (by decide)
  have hsp : splitOnNl shortLineText =
      [List.replicate 50 'B', List.replicate 960 'C'] := by
    unfold shortLineText
    rw [splitOnNl_append hnlB, splitOnNl_eq_singleton hnlC]
  rw [get_text_chunks_eq hne hsp,
    packLines_overflow (by simp only [List.length_replicate]; omega)]
  have hw1 : windows 1000 200 (List.replicate 50 'B') =
      [List.replicate 50 'B'] := by
    rw [windows, if_pos (by simp only [List.length_replicate]; omega)]
  rw [hw1]
  have htr : takeRight 200 (([List.replicate 50 'B'] :
      List (List Char)).getLastD []) = List.replicate 50 'B' := by
    show takeRight 200 (List.replicate 50 'B') = List.replicate 50 'B'
    unfold takeRight
    rw [List.length_replicate, List.drop_replicate]
  rw [htr, packLines, windows]
  rw [if_neg (by
    simp only [List.length_append, List.length_cons, List.length_replicate]
    omega)]
  have htake : (List.replicate 50 'B' ++ '\n' :: List.replicate 960 'C').take 1000 =
      List.replicate 50 'B' ++ '\n' :: List.replicate 949 'C' := by
    rw [List.take_append_eq_append_take, List.take_replicate, List.length_replicate]
    norm_num
  have hdrop : (List.replicate 50 'B' ++ '\n' :: List.replicate 960 'C').drop (1000 - 200) =
      List.replicate 211 'C' := by
    rw [List.drop_append_eq_append_drop, List.drop_replicate, List.length_replicate]
    norm_num
  rw [htake, hdrop]
  rw [windows, if_pos (by simp only [List.length_replicate]; omega)]
  rfl

set_option linter.constructorNameAsVariable false in
/-- C3 counterexample: on `shortLineText` the chunk sequence violates the
claim that each chunk overlaps the previous one by exactly 200 characters
(the second chunk carries only the 50 characters the first chunk has). -/
theorem get_text_chunks_exact_overlap_counterexample :
    ¬ ((∀ c ∈ get_text_chunks shortLineText, c.length ≤ 1000) ∧
       List.Chain' (fun u v => v.take 200 = takeRight 200 u)
         (get_text_chunks shortLineText)) := by
  intro hcl
  cases hcl with
  | intro hA hB =>
    rw [get_text_chunks_shortLineText] at hB
    have hR := (List.chain'_cons.mp hB).1
    have hlen := congrArg List.length hR
    unfold takeRight at hlen
    simp only [List.length_take, List.length_drop, List.length_append,
      List.length_cons, List.length_replicate] at hlen
    omega


lemma ask_of_gen_error {embed : Embedder} {gen : Generator}
    {s : ConversationSession} {q : List Char} {e : PipelineError}
    (h : gen (askGenInput embed s q) = .error e) :
    ask embed gen s q = .error e := by
  unfold ask
  rw [h]

lemma ask_of_gen_ok {embed : Embedder} {gen : Generator}
    {s : ConversationSession} {q a : List Char}
    (h : gen (askGenInput embed s q) = .ok a) :
    ask embed gen s q = .ok (a, ⟨s.index, s.history ++ [(q, a)]⟩) := by
  unfold ask
  rw [h]

lemma ask_ok_inv {embed : Embedder} {gen : Generator}
    {s s2 : ConversationSession} {q a : List Char}
    (h : ask embed gen s q = .ok (a, s2)) :
    s2 = ⟨s.index, s.history ++ [(q, a)]⟩ := by
  unfold ask at h
  cases hg : gen (askGenInput embed s q) with
  | error e => rw [hg] at h; exact absurd h (by simp)
  | ok ans =>
    rw [hg] at h
    have hp := Except.ok.inj h
    have ha : ans = a := congrArg Prod.fst hp
    have hs := congrArg Prod.snd hp
    simp only at hs
    rw [← hs, ha]

lemma processStep_of_error {docs : List Document} {e : PipelineError}
    (st : AppState)
    (h : get_vectorstore (get_text_chunks (get_datasheets_text docs)) = .error e) :
    processStep st docs = (.error e, st) := by
  unfold processStep
  rw [h]

lemma processStep_of_ok {docs : List Document} {vs : VectorIndex} (st : AppState)
    (h : get_vectorstore (get_text_chunks (get_datasheets_text docs)) = .ok vs) :
    processStep st docs =
      (.ok (), { st with conversation := some (get_conversation_chain vs) }) := by
  unfold processStep
  rw [h]

lemma handle_userinput_of_none {embed : Embedder} {gen : Generator}
    {st : AppState} {q : List Char} (hs : st.conversation = none) :
    handle_userinput embed gen st q = (.error .SessionNotReady, st) := by
  unfold handle_userinput
  rw [hs]

lemma handle_userinput_of_some {embed : Embedder} {gen : Generator}
    {st : AppState} {q : List Char} {s : ConversationSession}
    (hs : st.conversation = some s) :
    handle_userinput embed gen st q = renderResponse st (ask embed gen s q) := by
  unfold handle_userinput
  rw [hs]

/-- Evaluation of the chunker on the one-character text `d`. -/
lemma get_text_chunks_single_d : get_text_chunks ['d'] = [['d']] := by
  have hne : (['d'] : List Char) ≠ [] := by simp
  have hsp : splitOnNl ['d'] = [['d']] := splitOnNl_eq_singleton (by decide)
  rw [get_text_chunks_eq hne hsp, packLines, windows, if_pos (by simp)]

/-- Witness for C3 (amended) at the concrete text `d`. -/
theorem get_text_chunks_size_and_overlap_witness :
    (['d'] : List Char).length ≤ 1000 ∧
    List.Chain' (overlapRel 200) (get_text_chunks ['d']) :=
  ⟨(get_text_chunks_size_and_overlap ['d']).1 ['d']
      (by rw [get_text_chunks_single_d]; exact List.mem_singleton.mpr rfl),
   (get_text_chunks_size_and_overlap ['d']).2⟩

/-- Evaluation of the Process pipeline on one single-page document whose
extracted text is the single character `d`. -/
lemma build_single_page_doc :
    get_vectorstore (get_text_chunks (get_datasheets_text [[['d']]])) =
      .ok ⟨[['d']]⟩ := by
  have h1 : get_datasheets_text [[['d']]] = ['d'] := rfl
  rw [h1, get_text_chunks_single_d]
  rfl

/-- C1: retrieval uses only the current question text — two sessions bound to
the same index retrieve the same chunks for the same question, whatever their
chat histories, and the context composed for the backend is the same. -/
theorem retrieval_ignores_history (embed : Embedder)
    (s1 s2 : ConversationSession) (question : List Char)
    (h : s1.index = s2.index) :
    retrievedChunks embed s1 question = retrievedChunks embed s2 question ∧
    (askGenInput embed s1 question).context =
      (askGenInput embed s2 question).context := by
  have hr : retrievedChunks embed s1 question = retrievedChunks embed s2 question := by
    unfold retrievedChunks
    rw [h]
  exact ⟨hr, hr⟩

/-- Witness for C1 at concrete sessions differing only in history. -/
theorem retrieval_ignores_history_witness :
    (⟨⟨[['d']]⟩, []⟩ : ConversationSession).index =
      (⟨⟨[['d']]⟩, [(['x'], ['y'])]⟩ : ConversationSession).index ∧
    retrievedChunks (fun _ => [1]) ⟨⟨[['d']]⟩, []⟩ ['q'] =
      retrievedChunks (fun _ => [1]) ⟨⟨[['d']]⟩, [(['x'], ['y'])]⟩ ['q'] :=
  ⟨rfl, (retrieval_ignores_history (fun _ => [1]) ⟨⟨[['d']]⟩, []⟩
    ⟨⟨[['d']]⟩, [(['x'], ['y'])]⟩ ['q'] rfl).1⟩

/-- C4: processing zero documents extracts the empty text, chunks it into an
empty sequence, fails the index build with `EmptyChunkSet`, and leaves the
stored state — any prior session included — untouched. -/
theorem process_zero_documents (st : AppState) :
    get_datasheets_text [] = [] ∧
    get_text_chunks (get_datasheets_text []) = [] ∧
    get_vectorstore (get_text_chunks (get_datasheets_text [])) =
      .error .EmptyChunkSet ∧
    processStep st [] = (.error .EmptyChunkSet, st) :=
  ⟨rfl, rfl, rfl, rfl⟩

/-- C5: with no stored conversation every question is rejected with
`SessionNotReady` and nothing changes; a stored (Ready) conversation stays
stored after any question; a successful Process stores one. -/
theorem uninitialized_rejects_ready_stays (embed : Embedder) (gen : Generator)
    (st : AppState) (q : List Char) :
    (st.conversation = none →
      handle_userinput embed gen st q = (.error .SessionNotReady, st)) ∧
    (st.conversation.isSome = true →
      ((handle_userinput embed gen st q).2).conversation.isSome = true) ∧
    (∀ docs vs,
      get_vectorstore (get_text_chunks (get_datasheets_text docs)) = .ok vs →
      ((processStep st docs).2).conversation = some (get_conversation_chain vs)) := by
  refine ⟨?_, ?_, ?_⟩
  · intro h
    exact handle_userinput_of_none h
  · intro h
    rcases hc : st.conversation with _ | s
    · rw [hc] at h
      exact absurd h (by simp)
    · rw [handle_userinput_of_some hc]
      cases hask : ask embed gen s q with
      | error e =>
        show st.conversation.isSome = true
        rw [hc]
        rfl
      | ok pr =>
        obtain ⟨a, s2⟩ := pr
        rfl
  · intro docs vs h
    rw [processStep_of_ok st h]

/-- Witness for C5 at a concrete empty and a concrete Ready state. -/
theorem uninitialized_rejects_ready_stays_witness :
    handle_userinput (fun _ => []) (fun _ => .ok ['y']) initState ['q'] =
      (.error .SessionNotReady, initState) ∧
    ((handle_userinput (fun _ => []) (fun _ => .ok ['y'])
        ⟨some ⟨⟨[['d']]⟩, []⟩, none⟩ ['q']).2).conversation.isSome = true ∧
    ((processStep initState [[['d']]]).2).conversation =
      some (get_conversation_chain ⟨[['d']]⟩) :=
  ⟨(uninitialized_rejects_ready_stays (fun _ => []) (fun _ => .ok ['y'])
      initState ['q']).1 rfl,
   (uninitialized_rejects_ready_stays (fun _ => []) (fun _ => .ok ['y'])
      ⟨some ⟨⟨[['d']]⟩, []⟩, none⟩ ['q']).2.1 rfl,
   (uninitialized_rejects_ready_stays (fun _ => []) (fun _ => .ok ['y'])
      initState ['q']).2.2 [[['d']]] ⟨[['d']]⟩ build_single_page_doc⟩

lemma foldl_append_pages (d : List Page) (t : List Char) :
    d.foldl (fun acc page => acc ++ page) t = t ++ d.flatten := by
  induction d generalizing t with
  | nil => simp
  | cons p ps ih =>
    rw [List.foldl_cons, ih, List.flatten_cons, List.append_assoc]

lemma get_datasheets_text_from (datasheets : List Document) (t : List Char) :
    datasheets.foldl (fun text d => d.foldl (fun text page => text ++ page) text) t =
      t ++ (datasheets.map (fun d => d.flatten)).flatten := by
  induction datasheets generalizing t with
  | nil => simp
  | cons d ds ih =>
    rw [List.foldl_cons, foldl_append_pages, ih, List.map_cons,
      List.flatten_cons, List.append_assoc]

/-- C6: extraction concatenates per-page text in document order then page
order with no separator, and a page with no extractable text contributes
nothing: inserting an empty page anywhere changes nothing. -/
theorem get_datasheets_text_concat (datasheets pre post : List Document)
    (d1 d2 : List Page) :
    get_datasheets_text datasheets =
      (datasheets.map (fun d => d.flatten)).flatten ∧
    get_datasheets_text (pre ++ (d1 ++ [] :: d2) :: post) =
      get_datasheets_text (pre ++ (d1 ++ d2) :: post) := by
  constructor
  · unfold get_datasheets_text
    rw [get_datasheets_text_from, List.nil_append]
  · unfold get_datasheets_text
    rw [get_datasheets_text_from, get_datasheets_text_from]
    simp [List.flatten_append]

/-- C7: two successful `ask` calls append exactly their two turns in call
order, and the history handed to the generation backend on the second call
is the original history plus the first turn — it contains the first call's
question and answer verbatim. -/
theorem two_asks_append_in_order (embed : Embedder) (gen : Generator)
    (s s1 s2 : ConversationSession) (q1 q2 a1 a2 : List Char)
    (h1 : ask embed gen s q1 = .ok (a1, s1))
    (h2 : ask embed gen s1 q2 = .ok (a2, s2)) :
    s2.history = s.history ++ [(q1, a1), (q2, a2)] ∧
    (askGenInput embed s1 q2).chat_history = s.history ++ [(q1, a1)] ∧
    (q1, a1) ∈ (askGenInput embed s1 q2).chat_history := by
  have hs1 := ask_ok_inv h1
  have hs2 := ask_ok_inv h2
  subst hs1
  subst hs2
  refine ⟨by simp, rfl, ?_⟩
  show (q1, a1) ∈ s.history ++ [(q1, a1)]
  simp

/-- Witness for C7: two concrete asks on a one-chunk index. -/
theorem two_asks_append_in_order_witness :
    (⟨⟨[['d']]⟩, [(['p'], ['y']), (['r'], ['y'])]⟩ :
        ConversationSession).history =
      (⟨⟨[['d']]⟩, []⟩ : ConversationSession).history ++
        [(['p'], ['y']), (['r'], ['y'])] ∧
    (askGenInput (fun _ => []) ⟨⟨[['d']]⟩, [(['p'], ['y'])]⟩ ['r']).chat_history =
      (⟨⟨[['d']]⟩, []⟩ : ConversationSession).history ++ [(['p'], ['y'])] ∧
    (['p'], ['y']) ∈
      (askGenInput (fun _ => []) ⟨⟨[['d']]⟩, [(['p'], ['y'])]⟩ ['r']).chat_history :=
  two_asks_append_in_order (fun _ => []) (fun _ => .ok ['y'])
    ⟨⟨[['d']]⟩, []⟩ ⟨⟨[['d']]⟩, [(['p'], ['y'])]⟩
    ⟨⟨[['d']]⟩, [(['p'], ['y']), (['r'], ['y'])]⟩ ['p'] ['r'] ['y'] ['y'] rfl rfl

/-- C8: when the generation backend fails, the error surfaces through the
handler, and the stored state — conversation, its history, and the rendered
chat history — is exactly what it was, so the user may retry. -/
theorem ask_error_preserves_state (embed : Embedder) (gen : Generator)
    (st : AppState) (q : List Char) (s : ConversationSession)
    (e : PipelineError) (hs : st.conversation = some s)
    (hfail : ask embed gen s q = .error e) :
    handle_userinput embed gen st q = (.error e, st) := by
  rw [handle_userinput_of_some hs, hfail]
  rfl

/-- Witness for C8 with a generation backend that always fails. -/
theorem ask_error_preserves_state_witness :
    handle_userinput (fun _ => []) (fun _ => .error .GenerationBackendError)
        ⟨some ⟨⟨[['d']]⟩, [(['p'], ['y'])]⟩, some [['p'], ['y']]⟩ ['q'] =
      (.error .GenerationBackendError,
        ⟨some ⟨⟨[['d']]⟩, [(['p'], ['y'])]⟩, some [['p'], ['y']]⟩) :=
  ask_error_preserves_state (fun _ => [])
    (fun _ => .error .GenerationBackendError)
    ⟨some ⟨⟨[['d']]⟩, [(['p'], ['y'])]⟩, some [['p'], ['y']]⟩ ['q']
    ⟨⟨[['d']]⟩, [(['p'], ['y'])]⟩ .GenerationBackendError rfl rfl

/-- C9: an `ask` never changes the session's bound index, and a successful
Process installs a brand-new session — the freshly built index with an empty
history — irrespective of whatever session was stored before. -/
theorem index_immutable_session_replaced (embed : Embedder) (gen : Generator) :
    (∀ (s s2 : ConversationSession) (q a : List Char),
      ask embed gen s q = .ok (a, s2) → s2.index = s.index) ∧
    (∀ (st : AppState) (docs : List Document) (vs : VectorIndex),
      get_vectorstore (get_text_chunks (get_datasheets_text docs)) = .ok vs →
      (processStep st docs).2 =
        { st with conversation := some ⟨vs, []⟩ }) := by
  constructor
  · intro s s2 q a h
    rw [ask_ok_inv h]
  · intro st docs vs h
    rw [processStep_of_ok st h]
    rfl

/-- Witness for C9: a concrete ask and a concrete reprocess on a state that
already holds a different session. -/
theorem index_immutable_session_replaced_witness :
    (⟨⟨[['d']]⟩, [(['p'], ['y'])]⟩ : ConversationSession).index =
      (⟨⟨[['d']]⟩, []⟩ : ConversationSession).index ∧
    (processStep ⟨some ⟨⟨[['z']]⟩, [(['a'], ['b'])]⟩, none⟩ [[['d']]]).2 =
      ⟨some ⟨⟨[['d']]⟩, []⟩, none⟩ :=
  ⟨(index_immutable_session_replaced (fun _ => []) (fun _ => .ok ['y'])).1
      ⟨⟨[['d']]⟩, []⟩ ⟨⟨[['d']]⟩, [(['p'], ['y'])]⟩ ['p'] ['y'] rfl,
   (index_immutable_session_replaced (fun _ => []) (fun _ => .ok ['y'])).2
      ⟨some ⟨⟨[['z']]⟩, [(['a'], ['b'])]⟩, none⟩ [[['d']]] ⟨[['d']]⟩
      build_single_page_doc⟩

/-- C10: an empty question string is falsy, so the handler is never invoked:
no retrieval, no generation (the result does not depend on either backend),
and the stored state is returned unchanged. -/
theorem empty_question_is_noop (embed : Embedder) (gen : Generator)
    (st : AppState) :
    questionStep embed gen st [] = st := rfl

end ElectroGPT
